import Mathlib

/-!
Verification of the fallback-chain i18n library (src/i18n.js) against its
natural-language specification.

The JavaScript class `I18n` is shallowly embedded: JS `Map`s become
association lists (which preserve insertion order, as JS Maps do), JS values
that the algorithm inspects become the inductive `Val`, fallible operations
(JS `throw`) return `Except String`, and the wall-clock `performance.now()`
is modelled as a strictly increasing logical counter stored in the state
(the spec's §9 design note makes the same replacement).
-/

namespace DSI18n

/-- JS runtime values as far as the library inspects them: the base-override
value is branched on by `typeof x == 'string'` and `x instanceof Array`
(i18n.js:596-600), all other values are opaque to the resolver. -/
inductive Val where
  | vstr (s : String)
  | vlist (l : List Val)
  | vnum (n : Int)
  | vbool (b : Bool)
  | vnull

/-- A language table: JS `Map{string key -> value}` in insertion order. -/
abbrev Lang := List (String × Val)

/-- `Map.get` / `Map.has` on an insertion-ordered association list. -/
def alookup {α : Type} : List (String × α) → String → Option α
  | [], _ => none
  | (k, v) :: rest, key => if k = key then some v else alookup rest key

/-- `Map.set`: replaces in place if the key exists, else appends (JS Map
keeps the original insertion position on overwrite). -/
def aset {α : Type} : List (String × α) → String → α → List (String × α)
  | [], key, val => [(key, val)]
  | (k, v) :: rest, key, val =>
    if k = key then (key, val) :: rest else (k, v) :: aset rest key val

/-- `Map.delete`. Keys are unique in every store built through the API, so
removing the first occurrence is the JS behaviour. -/
def adelete {α : Type} : List (String × α) → String → List (String × α)
  | [], _ => []
  | (k, v) :: rest, key => if k = key then rest else (k, v) :: adelete rest key

/-- `_sanitizeLanguage` (i18n.js:503-510) on an input that is already a
string: JS `toLowerCase`, mapped characterwise (identifiers are ASCII).
Defined structurally over the character list so that it evaluates inside
the kernel. -/
def jsLower (s : String) : String := ⟨s.data.map Char.toLower⟩

/-- The part of the instance state that `_cacheChain`'s chain-building loop
reads (i18n.js:581-625): the language store, the global base language and
the configured base-override key. -/
structure Env where
  languages : List (String × Lang)
  baseLanguage : String
  baseLanguageKey : String

/-- Normalisation of the base-override value, i18n.js:590-600: an absent key
or an unloaded node yields no candidates, a string becomes a one-element
array, a non-string non-array value is skipped (`continue`). -/
def normBases : Option Val → Option (List Val)
  | none => none
  | some (.vstr s) => some [.vstr s]
  | some (.vlist l) => some l
  | some _ => none

/-- One candidate step of the two push loops (i18n.js:604-608 and 618-622):
append to the chain if new and loaded, else record as missing if new and
unloaded, else do nothing. -/
def addCandidate (env : Env) (base : String) (chain missing : List String) :
    List String × List String :=
  if base ∉ chain ∧ (alookup env.languages base).isSome = true then
    (chain ++ [base], missing)
  else if base ∉ missing ∧ (alookup env.languages base).isSome = false then
    (chain, missing ++ [base])
  else
    (chain, missing)

/-- The `for (let base of baseLanguages)` loop over a node's declared
override candidates (i18n.js:602-609). Each element is passed through
`_sanitizeLanguage` (i18n.js:603), which throws on a non-string. -/
def processCands (env : Env) : List Val → List String → List String →
    Except String (List String × List String)
  | [], chain, missing => .ok (chain, missing)
  | .vstr s :: rest, chain, missing =>
    let p := addCandidate env (jsLower s) chain missing
    processCands env rest p.1 p.2
  | _ :: _, _, _ => .error "language must be of type string"

/-- The tail-append loop over the global base candidates (i18n.js:617-623).
Unlike the override loop, the source does not sanitize these. -/
def processBase (env : Env) : List String → List String → List String →
    List String × List String
  | [], chain, missing => (chain, missing)
  | base :: rest, chain, missing =>
    let p := addCandidate env base chain missing
    processBase env rest p.1 p.2

/-- Body of one iteration of the chain-building loop at position `pos`
(i18n.js:582-624): an unloaded node is pushed to `missing` and skipped; a
node without usable override candidates is skipped (note that the skip also
jumps over the tail-append); otherwise the candidates are processed and, if
the node is still the last chain element, the global base candidates are
appended. The source's array-valued `this.baseLanguage` branch
(i18n.js:612-616) is unreachable: the constructor and `setBaseLanguage`
only accept strings, so the string-wrap branch always runs. -/
def expandAt (env : Env) (pos : Nat) (chain missing : List String) :
    Except String (List String × List String) :=
  match chain[pos]? with
  | none => .ok (chain, missing)
  | some cur =>
    match alookup env.languages cur with
    | none => .ok (chain, missing ++ [cur])
    | some langMap =>
      match normBases (alookup langMap env.baseLanguageKey) with
      | none => .ok (chain, missing)
      | some cands =>
        (processCands env cands chain missing).map (fun p =>
          if pos = p.1.length - 1 then processBase env [env.baseLanguage] p.1 p.2
          else p)

/-- The growing-work-list loop `for (let pos = 0; pos < chain.length; pos++)`
(i18n.js:581-625), with an explicit fuel parameter. The loop body appends
only loaded languages not already in the chain, so the chain length never
exceeds `1 + number of store entries` and `resolveChain` passes enough fuel
for the loop to reach its exit condition. -/
def chainLoop (env : Env) : Nat → Nat → List String → List String →
    Except String (List String × List String)
  | 0, _, chain, missing => .ok (chain, missing)
  | fuel + 1, pos, chain, missing =>
    if pos < chain.length then
      match expandAt env pos chain missing with
      | .error e => .error e
      | .ok p => chainLoop env fuel (pos + 1) p.1 p.2
    else .ok (chain, missing)

/-- The chain computation of `_cacheChain` (i18n.js:576-625): start from
`[language]` and expand iteratively. Returns the finished chain and the
list of missing languages. -/
def resolveChain (env : Env) (language : String) :
    Except String (List String × List String) :=
  chainLoop env (env.languages.length + 2) 0 [language] []

/-- Full instance state of the `I18n` class. `events` maps an event name to
its subscriber map (uid to an opaque callback tag); `uidSupply` replaces the
random `_uuid` source with a deterministic supply; `now` is the logical
clock standing in for `performance.now()`. -/
structure I18nState where
  languages : List (String × Lang)
  chains : List (String × List String)
  baseLanguage : String
  baseLanguageKey : String
  events : List (String × List (String × Nat))
  uidSupply : Nat
  dirtyTs : Nat
  chainsTs : Nat
  now : Nat

/-- The resolver-visible part of the state. -/
def I18nState.env (s : I18nState) : Env :=
  ⟨s.languages, s.baseLanguage, s.baseLanguageKey⟩

/-- The constructor (i18n.js:96-113): validates both arguments but stores
`defaultLanguage` without lowercasing it (the `_sanitizeLanguage` return
value is discarded on line 97). `dirtyTs` is stamped before `chainsTs`
(lines 111-112), hence the initial values 0 and 1. -/
def mkI18n (defaultLanguage : String) (baseLanguageKey : String) : I18nState :=
  { languages := [], chains := [],
    baseLanguage := defaultLanguage, baseLanguageKey := baseLanguageKey,
    events := [("missingkey", []), ("missinglanguage", []), ("change", [])],
    uidSupply := 0, dirtyTs := 0, chainsTs := 1, now := 2 }

/-- `this.dirtyTs = performance.now()`: stamp the dirty timestamp with the
current clock and advance the clock. -/
def bumpDirty (s : I18nState) : I18nState :=
  { s with dirtyTs := s.now, now := s.now + 1 }

/-- `setBaseLanguage` (i18n.js:119-126): `_sanitizeLanguage(language)` is
called for validation only and its lowercased result is discarded, so the
original-case string is stored. -/
def setBaseLanguage (s : I18nState) (language : String) : I18nState :=
  bumpDirty { s with baseLanguage := language }

/-- `createLanguage` (i18n.js:151-158): inserts an empty table under the
lowercased name, replacing any existing one, and marks the state dirty. -/
def createLanguage (s : I18nState) (language : String) : I18nState :=
  bumpDirty { s with languages := aset s.languages (jsLower language) [] }

/-- The resolved branch of `loadLanguage` (i18n.js:205-217) with the decoded
key/value table passed in directly; decoding from File/Blob/JSON text is the
out-of-scope ingestion boundary (spec §6). -/
def putLanguage (s : I18nState) (language : String) (table : Lang) : I18nState :=
  bumpDirty { s with languages := aset s.languages (jsLower language) table }

/-- `destroyLanguage` (i18n.js:254-263): throws `'language unknown'` if the
language is not loaded, else removes it and marks the state dirty. -/
def destroyLanguage (s : I18nState) (language : String) :
    Except String I18nState :=
  match alookup s.languages (jsLower language) with
  | none => .error "language unknown"
  | some _ =>
    .ok (bumpDirty { s with languages := adelete s.languages (jsLower language) })

/-- `clearKey` (i18n.js:272-296): returns `false` without touching anything
if the key is absent; otherwise deletes it, and bumps the dirty timestamp
only when the deleted key is the (case-sensitively compared) base key. -/
def clearKey (s : I18nState) (language key : String) :
    Except String (Bool × I18nState) :=
  match alookup s.languages (jsLower language) with
  | none => .error "language unknown"
  | some m =>
    match alookup m key with
    | none => .ok (false, s)
    | some _ =>
      let s1 := { s with languages := aset s.languages (jsLower language) (adelete m key) }
      .ok (true, if key = s1.baseLanguageKey then bumpDirty s1 else s1)

/-- `setKey` (i18n.js:307-331): with `force = false` on an existing key it
returns `false` and changes nothing; otherwise it stores the value and bumps
the dirty timestamp only when the key is the base key. -/
def setKey (s : I18nState) (language key : String) (value : Val) (force : Bool) :
    Except String (Bool × I18nState) :=
  match alookup s.languages (jsLower language) with
  | none => .error "language unknown"
  | some m =>
    if (alookup m key).isSome = true ∧ force = false then .ok (false, s)
    else
      let s1 := { s with languages := aset s.languages (jsLower language) (aset m key value) }
      .ok (true, if key = s1.baseLanguageKey then bumpDirty s1 else s1)

/-- `getKey` (i18n.js:340-348): throws on unknown language or key. -/
def getKey (s : I18nState) (language key : String) : Except String Val :=
  match alookup s.languages (jsLower language) with
  | none => .error "language unknown"
  | some m =>
    match alookup m key with
    | none => .error "key unknown in language"
    | some v => .ok v

/-- JS `typeof` on the modelled values. -/
def jsTypeof : Val → String
  | .vstr _ => "string"
  | .vnum _ => "number"
  | .vbool _ => "boolean"
  | .vlist _ => "object"
  | .vnull => "object"

/-- `hook` (i18n.js:356-372): lowercases the event name, rejects unknown
events, stores the callback under a fresh uid and returns the uid. The
random `_uuid` is replaced by the deterministic `uidSupply` counter. -/
def hook (s : I18nState) (event : String) (cb : Nat) :
    Except String (String × I18nState) :=
  let ev := (jsLower event)
  match alookup s.events ev with
  | none => .error "event is unknown"
  | some m =>
    let uid := "uid" ++ toString s.uidSupply
    .ok (uid, { s with events := aset s.events ev (aset m uid cb),
                       uidSupply := s.uidSupply + 1 })

/-- `unhook` (i18n.js:374-392). The source's second guard is
`if (typeof (event) != 'number') throw 'callbackid must be a number'`
(line 379): it tests the event name — by then a string — instead of
`callbackid`, so every call with a string event name throws. The remaining
lines are dead code; were they reached, `this.events[event].remove` would
itself be a TypeError since JS `Map` has no `remove` method. -/
def unhook (s : I18nState) (event : String) (callbackid : String) :
    Except String (Bool × I18nState) :=
  let ev := (jsLower event)
  if jsTypeof (.vstr ev) ≠ "number" then .error "callbackid must be a number"
  else
    match alookup s.events ev with
    | none => .error "event is unknown"
    | some m =>
      if (alookup m callbackid).isSome = false then .ok (false, s)
      else .error "TypeError: this.events[event].remove is not a function"

/-- The cache-invalidation prologue of `_cacheChain` (i18n.js:563-567): if
the stored validation stamp is behind the dirty timestamp, drop every cached
chain and advance the stamp. -/
def cacheFresh (s : I18nState) : I18nState :=
  if s.chainsTs < s.dirtyTs then { s with chainsTs := s.dirtyTs, chains := [] }
  else s

/-- `_cacheChain` (i18n.js:556-638): invalidate if dirty, return a cached
chain when present, else resolve, store and return. The missing languages
only feed the `missingLanguage` event (external observers), so they do not
appear in the returned state. -/
def cacheChain (s : I18nState) (language : String) :
    Except String (List String × I18nState) :=
  match alookup (cacheFresh s).chains language with
  | some c => .ok (c, cacheFresh s)
  | none =>
    match resolveChain (cacheFresh s).env language with
    | .error e => .error e
    | .ok p =>
      .ok (p.1, { cacheFresh s with
                   chains := aset (cacheFresh s).chains language p.1 })

/-- The probe loop of `translate` (i18n.js:408-418): walk the chain, return
the first hit. `this.languages.get(language)` is `undefined` for an
unloaded chain element, so the subsequent `.has(key)` throws a TypeError;
when the chain is exhausted the initial `translated = key` is returned. -/
def probeChain (langs : List (String × Lang)) : List String → String →
    Except String Val
  | [], key => .ok (.vstr key)
  | l :: rest, key =>
    match alookup langs l with
    | none => .error "TypeError: languageMap is undefined"
    | some m =>
      match alookup m key with
      | some v => .ok v
      | none => probeChain langs rest key

/-- `translate` (i18n.js:401-421): lowercase the language, fetch the chain
through the cache, probe it in order. -/
def translate (s : I18nState) (key language : String) :
    Except String (Val × I18nState) :=
  match cacheChain s (jsLower language) with
  | .error e => .error e
  | .ok (chain, s1) =>
    match probeChain s1.languages chain key with
    | .error e => .error e
    | .ok v => .ok (v, s1)

/-- The mutating public calls named by the cache-coherence claim. -/
inductive Mut where
  | create (language : String)
  | load (language : String) (table : Lang)
  | destroy (language : String)
  | setBase (language : String)
  | setK (language key : String) (value : Val) (force : Bool)
  | clearK (language key : String)

/-- Run a mutating call, yielding the post state when it does not throw. -/
def applyMut : Mut → I18nState → Option I18nState
  | .create l, s => some (createLanguage s l)
  | .load l t, s => some (putLanguage s l t)
  | .destroy l, s => (destroyLanguage s l).toOption
  | .setBase l, s => some (setBaseLanguage s l)
  | .setK l k v f, s => ((setKey s l k v f).toOption).map Prod.snd
  | .clearK l k, s => ((clearKey s l k).toOption).map Prod.snd

/-- The condition under which a mutating call stamps a fresh dirty
timestamp: create, load and a global-base change always do; destroy does
when the language exists; set/clear of a key do exactly when the key is the
base-override key and the write/delete actually happens. -/
def MutDirties : Mut → I18nState → Prop
  | .create _, _ => True
  | .load _ _, _ => True
  | .destroy l, s => (alookup s.languages (jsLower l)).isSome = true
  | .setBase _, _ => True
  | .setK l k _ f, s =>
    k = s.baseLanguageKey ∧
      (match alookup s.languages (jsLower l) with
       | some m => ¬((alookup m k).isSome = true ∧ f = false)
       | none => False)
  | .clearK l k, s =>
    k = s.baseLanguageKey ∧
      (match alookup s.languages (jsLower l) with
       | some m => (alookup m k).isSome = true
       | none => False)

/-- Invariant relating a chain to an extension of it produced by the
resolver loop: the old chain is an initial segment, duplicate-freeness is
preserved, and every newly appended element is loaded in the store. -/
def ChainExtends (env : Env) (chain chain' : List String) : Prop :=
  (∃ ext, chain' = chain ++ ext) ∧
  (chain.Nodup → chain'.Nodup) ∧
  (∀ x, x ∈ chain' → x ∈ chain ∨ (alookup env.languages x).isSome = true)

/-- The set of language identifiers loaded in the store. -/
def envKeys (env : Env) : Finset String := (env.languages.map Prod.fst).toFinset

/-- Termination measure of the chain-building loop: loaded identifiers not
yet in the chain, plus unprocessed chain positions. Every loop iteration
strictly decreases it. -/
def loopMeasure (env : Env) (chain : List String) (pos : Nat) : Nat :=
  (envKeys env \ chain.toFinset).card + (chain.length - pos)

/-- Cyclic base-override graph of the spec's cycle-safety property: language
`a` declares base `b` and `b` declares base `a`, both loaded; the global
base `en-us` is not loaded. -/
def cycEnv : Env :=
  ⟨[("a", [("_base", .vstr "b")]), ("b", [("_base", .vstr "a")])], "en-us", "_base"⟩

/-- The fallback-correctness scenario: global base `en-us` loaded, `de-de`
loaded with override `en-gb`, `en-gb` not loaded. -/
def fbEnv : Env :=
  ⟨[("en-us", [("greet", .vstr "hello")]), ("de-de", [("_base", .vstr "en-gb")])],
   "en-us", "_base"⟩

/-- A full instance state over the fallback-correctness store. -/
def fbState : I18nState := { mkI18n "en-us" "_base" with languages := fbEnv.languages }

/-- Store where the requested language `a` has no base override and the
global base `b` is loaded. -/
def noOvEnv : Env := ⟨[("a", []), ("b", [])], "b", "_base"⟩

/-- State for the case-sensitivity scenario: `a` is loaded with a dead-end
override `x`, and `b` is loaded. -/
def caseState : I18nState :=
  { mkI18n "en-us" "_base" with languages := [("a", [("_base", .vstr "x")]), ("b", [])] }

/-- State holding one language with one key, for the setKey scenario. -/
def keyState : I18nState :=
  { mkI18n "en-us" "_base" with languages := [("de", [("greet", .vstr "hi")])] }

/-- State right after `createLanguage(s0, "aa")` on a fresh instance. -/
def createdState : I18nState := createLanguage (mkI18n "en-us" "_base") "aa"

/-- The state after the first `_cacheChain("aa")` call on `createdState`:
cache validated against the dirty stamp and holding the chain for `aa`. -/
def cachedState : I18nState :=
  { createdState with chainsTs := 2, chains := [("aa", ["aa"])] }

theorem chainExtends_refl (env : Env) (chain : List String) :
    ChainExtends env chain chain :=
  ⟨⟨[], by simp⟩, fun h => h, fun _ hx => .inl hx⟩

theorem chainExtends_trans {env : Env} {c1 c2 c3 : List String}
    (h12 : ChainExtends env c1 c2) (h23 : ChainExtends env c2 c3) :
    ChainExtends env c1 c3 := by
  obtain ⟨⟨e1, he1⟩, hn1, hm1⟩ := h12
  obtain ⟨⟨e2, he2⟩, hn2, hm2⟩ := h23
  refine ⟨⟨e1 ++ e2, by simp [he2, he1]⟩, fun h => hn2 (hn1 h), fun x hx => ?_⟩
  rcases hm2 x hx with h2 | h2
  · exact hm1 x h2
  · exact .inr h2

theorem addCandidate_extends (env : Env) (base : String)
    (chain missing : List String) :
    ChainExtends env chain (addCandidate env base chain missing).1 := by
  unfold addCandidate
  split
  · next h =>
    refine ⟨⟨[base], rfl⟩, fun hn => ?_, fun x hx => ?_⟩
    · simp [List.nodup_append, hn, h.1]
    · rcases List.mem_append.mp hx with h1 | h1
      · exact .inl h1
      · simp at h1
        subst h1
        exact .inr h.2
  · split
    · exact chainExtends_refl env chain
    · exact chainExtends_refl env chain

theorem processCands_extends (env : Env) (cands : List Val)
    (chain missing chain' missing' : List String)
    (h : processCands env cands chain missing = .ok (chain', missing')) :
    ChainExtends env chain chain' := by
  induction cands generalizing chain missing with
  | nil =>
    simp only [processCands] at h
    cases h
    exact chainExtends_refl env _
  | cons v rest ih =>
    match v with
    | .vstr s =>
      simp only [processCands] at h
      exact chainExtends_trans
        (addCandidate_extends env (jsLower s) chain missing) (ih _ _ h)
    | .vlist l => simp [processCands] at h
    | .vnum n => simp [processCands] at h
    | .vbool b => simp [processCands] at h
    | .vnull => simp [processCands] at h

theorem processBase_extends (env : Env) (bases : List String)
    (chain missing : List String) :
    ChainExtends env chain (processBase env bases chain missing).1 := by
  induction bases generalizing chain missing with
  | nil => exact chainExtends_refl env chain
  | cons b rest ih =>
    simp only [processBase]
    exact chainExtends_trans (addCandidate_extends env b chain missing) (ih _ _)

theorem expandAt_extends (env : Env) (pos : Nat)
    (chain missing chain' missing' : List String)
    (h : expandAt env pos chain missing = .ok (chain', missing')) :
    ChainExtends env chain chain' := by
  unfold expandAt at h
  split at h
  · cases h
    exact chainExtends_refl env _
  · split at h
    · cases h
      exact chainExtends_refl env _
    · split at h
      · cases h
        exact chainExtends_refl env _
      · cases hpc : processCands env _ chain missing with
        | error e => rw [hpc] at h; simp [Except.map] at h
        | ok p =>
          obtain ⟨c2, m2⟩ := p
          rw [hpc] at h
          simp only [Except.map] at h
          injection h with h
          have hpcx := processCands_extends env _ chain missing c2 m2 hpc
          split at h
          · have hc : chain' = (processBase env [env.baseLanguage] c2 m2).1 := by
              rw [h]
            rw [hc]
            exact chainExtends_trans hpcx
              (processBase_extends env [env.baseLanguage] c2 m2)
          · injection h with h1 h2
            rw [← h1]
            exact hpcx

theorem chainLoop_extends (env : Env) (fuel : Nat) (pos : Nat)
    (chain missing chain' missing' : List String)
    (h : chainLoop env fuel pos chain missing = .ok (chain', missing')) :
    ChainExtends env chain chain' := by
  induction fuel generalizing pos chain missing with
  | zero =>
    simp only [chainLoop] at h
    cases h
    exact chainExtends_refl env _
  | succ fuel ih =>
    simp only [chainLoop] at h
    split at h
    · cases hex : expandAt env pos chain missing with
      | error e => rw [hex] at h; simp at h
      | ok p =>
        rw [hex] at h
        exact chainExtends_trans
          (expandAt_extends env pos chain missing p.1 p.2 (by rw [hex])) (ih _ _ _ h)
    · cases h
      exact chainExtends_refl env _

theorem alookup_isSome_mem {α : Type} (l : List (String × α)) (x : String)
    (h : (alookup l x).isSome = true) : x ∈ l.map Prod.fst := by
  induction l with
  | nil => simp [alookup] at h
  | cons p rest ih =>
    obtain ⟨pk, pv⟩ := p
    simp only [alookup] at h
    by_cases hpk : pk = x
    · simp [hpk]
    · rw [if_neg hpk] at h
      simp [ih h]

/-- One successful loop iteration at an in-range position preserves
duplicate-freeness and strictly decreases the loop measure. -/
theorem expandAt_measure (env : Env) (pos : Nat)
    (chain missing chain2 missing2 : List String)
    (hnd : chain.Nodup) (hpos : pos < chain.length)
    (h : expandAt env pos chain missing = .ok (chain2, missing2)) :
    chain2.Nodup ∧ loopMeasure env chain2 (pos + 1) < loopMeasure env chain pos := by
  obtain ⟨⟨ext, he⟩, hndf, hmem⟩ := expandAt_extends env pos chain missing chain2 missing2 h
  subst he
  have hnd2 : (chain ++ ext).Nodup := hndf hnd
  refine ⟨hnd2, ?_⟩
  rw [List.nodup_append] at hnd2
  obtain ⟨hcnd, hext_nd, hdisj⟩ := hnd2
  have hsub : ext.toFinset ⊆ envKeys env \ chain.toFinset := by
    intro x hx
    rw [List.mem_toFinset] at hx
    have hnotc : x ∉ chain := fun hc => hdisj hc hx
    have hxload : (alookup env.languages x).isSome = true := by
      rcases hmem x (by simp [hx]) with h1 | h1
      · exact absurd h1 hnotc
      · exact h1
    rw [Finset.mem_sdiff, List.mem_toFinset]
    exact ⟨by simpa [envKeys] using alookup_isSome_mem env.languages x hxload, hnotc⟩
  have hcards : (envKeys env \ (chain ++ ext).toFinset).card
      = (envKeys env \ chain.toFinset).card - ext.length := by
    have h1 : (chain ++ ext).toFinset = chain.toFinset ∪ ext.toFinset := by
      simp [List.toFinset_append]
    have h2 : envKeys env \ (chain.toFinset ∪ ext.toFinset)
        = (envKeys env \ chain.toFinset) \ ext.toFinset := by
      ext a
      simp only [Finset.mem_sdiff, Finset.mem_union]
      tauto
    rw [h1, h2, Finset.card_sdiff hsub, List.toFinset_card_of_nodup hext_nd]
  have hle : ext.length ≤ (envKeys env \ chain.toFinset).card := by
    calc ext.length = ext.toFinset.card := (List.toFinset_card_of_nodup hext_nd).symm
    _ ≤ _ := Finset.card_le_card hsub
  simp only [loopMeasure, hcards, List.length_append]
  omega

/-- Beyond the loop measure, the amount of fuel is irrelevant: the loop has
reached its exit. This is the termination content of the iterative
`for (pos …)` traversal. -/
theorem chainLoop_fuel_free (env : Env) (n : Nat) :
    ∀ fuel1 fuel2 pos chain missing, chain.Nodup →
      loopMeasure env chain pos ≤ n → n < fuel1 → n < fuel2 →
      chainLoop env fuel1 pos chain missing = chainLoop env fuel2 pos chain missing := by
  induction n with
  | zero =>
    intro fuel1 fuel2 pos chain missing hnd hmeas h1 h2
    have hpos : ¬ pos < chain.length := by
      simp only [loopMeasure] at hmeas
      omega
    obtain ⟨f1, rfl⟩ : ∃ f, fuel1 = f + 1 := ⟨fuel1 - 1, by omega⟩
    obtain ⟨f2, rfl⟩ : ∃ f, fuel2 = f + 1 := ⟨fuel2 - 1, by omega⟩
    simp [chainLoop, hpos]
  | succ n ih =>
    intro fuel1 fuel2 pos chain missing hnd hmeas h1 h2
    obtain ⟨f1, rfl⟩ : ∃ f, fuel1 = f + 1 := ⟨fuel1 - 1, by omega⟩
    obtain ⟨f2, rfl⟩ : ∃ f, fuel2 = f + 1 := ⟨fuel2 - 1, by omega⟩
    by_cases hpos : pos < chain.length
    · simp only [chainLoop, if_pos hpos]
      cases hex : expandAt env pos chain missing with
      | error e => rfl
      | ok p =>
        obtain ⟨c2, m2⟩ := p
        obtain ⟨hnd2, hm2⟩ := expandAt_measure env pos chain missing c2 m2 hnd hpos hex
        exact ih f1 f2 (pos + 1) c2 m2 hnd2 (by omega) (by omega) (by omega)
    · simp [chainLoop, hpos]

/-- Running the loop with any fuel at least `store size + 2` gives the same
result as `resolveChain`: on every finite store the iteration stabilises
within the fuel `resolveChain` provides. -/
theorem resolveChain_fuel_free (env : Env) (L : String) (fuel : Nat)
    (h : env.languages.length + 2 ≤ fuel) :
    chainLoop env fuel 0 [L] [] = resolveChain env L := by
  have hmeas : loopMeasure env [L] 0 ≤ env.languages.length + 1 := by
    have hc : (envKeys env \ [L].toFinset).card ≤ env.languages.length := by
      calc (envKeys env \ [L].toFinset).card
          ≤ (envKeys env).card := Finset.card_le_card (Finset.sdiff_subset)
      _ ≤ (env.languages.map Prod.fst).length := List.toFinset_card_le _
      _ = env.languages.length := by simp
    simp only [loopMeasure, List.length_singleton]
    omega
  exact chainLoop_fuel_free env (env.languages.length + 1) fuel
    (env.languages.length + 2) 0 [L] [] (by simp) hmeas (by omega) (by omega)

theorem alookup_aset_self {α : Type} (l : List (String × α)) (k : String) (v : α) :
    alookup (aset l k v) k = some v := by
  induction l with
  | nil => simp [aset, alookup]
  | cons p rest ih =>
    obtain ⟨pk, pv⟩ := p
    by_cases h : pk = k
    · simp [aset, h, alookup]
    · simp [aset, h, alookup, ih]

/-- Any mutating call that stamps the dirty timestamp sets it to the clock
reading taken during the call, and leaves the cache validation stamp
untouched. -/
theorem applyMut_dirty (mu : Mut) (s s' : I18nState)
    (hm : applyMut mu s = some s') (hd : MutDirties mu s) :
    s'.dirtyTs = s.now ∧ s'.chainsTs = s.chainsTs := by
  cases mu with
  | create l =>
    simp only [applyMut, Option.some.injEq] at hm
    subst hm
    exact ⟨rfl, rfl⟩
  | load l t =>
    simp only [applyMut, Option.some.injEq] at hm
    subst hm
    exact ⟨rfl, rfl⟩
  | setBase l =>
    simp only [applyMut, Option.some.injEq] at hm
    subst hm
    exact ⟨rfl, rfl⟩
  | destroy l =>
    simp only [MutDirties] at hd
    simp only [applyMut, destroyLanguage] at hm
    cases hal : alookup s.languages (jsLower l) with
    | none => rw [hal] at hd; simp at hd
    | some m =>
      rw [hal] at hm
      simp only [Except.toOption, Option.some.injEq] at hm
      subst hm
      exact ⟨rfl, rfl⟩
  | setK l k v f =>
    obtain ⟨hk, hrest⟩ := hd
    simp only [applyMut, setKey] at hm
    cases hal : alookup s.languages (jsLower l) with
    | none => rw [hal] at hrest; simp at hrest
    | some m =>
      rw [hal] at hm hrest
      dsimp only at hm hrest
      rw [if_neg hrest] at hm
      simp only [Except.toOption, Option.map, Option.some.injEq] at hm
      subst hm
      rw [if_pos hk]
      exact ⟨rfl, rfl⟩
  | clearK l k =>
    obtain ⟨hk, hrest⟩ := hd
    simp only [applyMut, clearKey] at hm
    cases hal : alookup s.languages (jsLower l) with
    | none => rw [hal] at hrest; simp at hrest
    | some m =>
      rw [hal] at hm hrest
      dsimp only at hm hrest
      cases hkk : alookup m k with
      | none => rw [hkk] at hrest; simp at hrest
      | some v =>
        rw [hkk] at hm
        simp only [Except.toOption, Option.map, Option.some.injEq] at hm
        subst hm
        rw [if_pos hk]
        exact ⟨rfl, rfl⟩

/-- C1: for every store and every requested language `L` (loaded or not),
a chain the resolver computes for `L` has `L` as its first element and
contains no duplicate language identifiers. -/
theorem c1_chain_head_nodup (env : Env) (L : String)
    (chain missing : List String)
    (h : resolveChain env L = .ok (chain, missing)) :
    chain.head? = some L ∧ chain.Nodup := by
  obtain ⟨⟨ext, he⟩, hnd, _⟩ := chainLoop_extends env _ 0 [L] [] chain missing h
  subst he
  exact ⟨rfl, hnd (by simp)⟩

/-- Witness for C1 on a concrete cyclic store. -/
theorem c1_witness :
    (resolveChain cycEnv "a" = .ok (["a", "b"], ["en-us"])) ∧
    (["a", "b"] : List String).head? = some "a" ∧
    (["a", "b"] : List String).Nodup :=
  ⟨rfl, c1_chain_head_nodup cycEnv "a" ["a", "b"] ["en-us"] rfl⟩

/-- C2: chain resolution terminates on every finite store — with any fuel
at least `store size + 2` the loop's answer is the same, i.e. the iteration
has stabilised — and on the cyclic store where loaded `a` declares base `b`
and loaded `b` declares base `a`, any amount of extra fuel still yields the
chain `["a", "b"]` rather than looping; the unloaded global base lands in
the missing list. -/
theorem c2_cycle_terminates :
    (∀ (env : Env) (L : String) (fuel : Nat), env.languages.length + 2 ≤ fuel →
      chainLoop env fuel 0 [L] [] = resolveChain env L) ∧
    (∀ extra : Nat,
      chainLoop cycEnv (extra + 3) 0 ["a"] [] = .ok (["a", "b"], ["en-us"])) ∧
    resolveChain cycEnv "a" = .ok (["a", "b"], ["en-us"]) :=
  ⟨resolveChain_fuel_free, fun _ => rfl, rfl⟩

/-- Witness for C2: fuel 10 exceeds the bound for the two-language cyclic
store and reproduces the resolver's answer. -/
theorem c2_witness :
    cycEnv.languages.length + 2 ≤ 10 ∧
    chainLoop cycEnv 10 0 ["a"] [] = resolveChain cycEnv "a" :=
  ⟨by decide, c2_cycle_terminates.1 cycEnv "a" 10 (by decide)⟩

/-- C3: after any mutating call that stamps the dirty timestamp (create,
load, destroy, global-base change, set/clear of the base-override key), the
next `_cacheChain` call — hence the next translate — resolves the chain
from the post-mutation state even if a chain was previously cached; the
freshly computed chain is stored, and a second call with no intervening
mutation returns the identical cached chain with the state unchanged
(a cache hit, not a recomputation). -/
theorem c3_cache_coherence (mu : Mut) (s s' : I18nState) (L : String)
    (hc : s.chainsTs < s.now)
    (hm : applyMut mu s = some s') (hd : MutDirties mu s) :
    ∀ c s2, cacheChain s' L = .ok (c, s2) →
      (∃ miss, resolveChain s'.env L = .ok (c, miss)) ∧
      alookup s2.chains L = some c ∧
      cacheChain s2 L = .ok (c, s2) := by
  obtain ⟨hdt, hct⟩ := applyMut_dirty mu s s' hm hd
  have hlt : s'.chainsTs < s'.dirtyTs := by rw [hdt, hct]; exact hc
  have hcf : cacheFresh s' = { s' with chainsTs := s'.dirtyTs, chains := [] } := by
    simp [cacheFresh, hlt]
  intro c s2 h
  unfold cacheChain at h
  rw [hcf] at h
  simp only [alookup] at h
  have henv : ({ s' with chainsTs := s'.dirtyTs, chains := ([] : List (String × List String)) } : I18nState).env = s'.env := rfl
  rw [henv] at h
  cases hres : resolveChain s'.env L with
  | error e => rw [hres] at h; simp at h
  | ok p =>
    obtain ⟨chain, miss⟩ := p
    rw [hres] at h
    simp only [Except.ok.injEq, Prod.mk.injEq] at h
    obtain ⟨hc1, hs2⟩ := h
    subst hc1
    subst hs2
    refine ⟨⟨miss, rfl⟩, ?_, ?_⟩
    · simp [aset, alookup]
    · simp [cacheChain, cacheFresh, aset, alookup]

/-- Witness for C3: create a language on a fresh instance, resolve its
chain once, observe the cached entry and the identical second answer. -/
theorem c3_witness :
    (∃ miss, resolveChain createdState.env "aa" = .ok (["aa"], miss)) ∧
    alookup cachedState.chains "aa" = some ["aa"] ∧
    cacheChain cachedState "aa" = .ok (["aa"], cachedState) :=
  c3_cache_coherence (.create "aa") (mkI18n "en-us" "_base") createdState "aa"
    (by decide) rfl trivial ["aa"] cachedState rfl

/-- C4 counterexample: in the spec's fallback scenario (global base `en-us`
loaded, `de-de` loaded with override `en-gb`, `en-gb` unloaded) the
computed chain is `["de-de", "en-us"]`, not the claimed
`["de-de", "en-gb", "en-us"]`: an unloaded override candidate is recorded
as missing and never appended to the chain (i18n.js:604-608). -/
theorem c4_counterexample :
    resolveChain fbEnv "de-de" = .ok (["de-de", "en-us"], ["en-gb"]) ∧
    (["de-de", "en-us"] : List String) ≠ ["de-de", "en-gb", "en-us"] :=
  ⟨rfl, by decide⟩

/-- C4 amended: in that scenario the chain is `["de-de", "en-us"]`, `en-gb`
is reported in the missing set, and translating a key present only in
`en-us` returns the `en-us` value. -/
theorem c4_amended :
    resolveChain fbEnv "de-de" = .ok (["de-de", "en-us"], ["en-gb"]) ∧
    "en-gb" ∈ (["en-gb"] : List String) ∧
    ∃ s', translate fbState "greet" "de-de" = .ok (.vstr "hello", s') :=
  ⟨rfl, by decide, ⟨_, rfl⟩⟩

/-- C5: `translate` is not total on missing data. Requesting an unloaded
language produces the chain `[language]` whose single element is not in the
store, so `this.languages.get(language)` is `undefined` and the `.has(key)`
call on it throws (i18n.js:410-411) instead of returning the key. -/
theorem c5_translate_throws_on_unloaded :
    translate (mkI18n "en-us" "_base") "hello" "xx" =
      .error "TypeError: languageMap is undefined" :=
  rfl

/-- C6: the tail-append of the global base is skipped whenever the frontier
node has no base-override key, because the `continue` at i18n.js:591 jumps
over it: with `a` loaded without override and the global base `b` loaded,
the chain for `a` is just `["a"]` and never reaches the loaded global
base. -/
theorem c6_no_override_skips_global_base :
    resolveChain noOvEnv "a" = .ok (["a"], []) ∧
    (alookup noOvEnv.languages "b").isSome = true ∧
    "b" ∉ (["a"] : List String) :=
  ⟨rfl, rfl, by decide⟩

/-- C7: `setBaseLanguage` is case-sensitive in effect: it validates via
`_sanitizeLanguage` but discards the lowercased result (i18n.js:120-121),
so `setBaseLanguage("B")` stores `"B"` verbatim, the loaded language `b` is
not recognized as the global base during chain resolution, and the
resulting chain differs from the one after `setBaseLanguage("b")`. -/
theorem c7_setBaseLanguage_case_sensitive :
    (setBaseLanguage caseState "B").baseLanguage = "B" ∧
    resolveChain (setBaseLanguage caseState "B").env "a" = .ok (["a"], ["x", "B"]) ∧
    resolveChain (setBaseLanguage caseState "b").env "a" = .ok (["a", "b"], ["x"]) :=
  ⟨rfl, rfl, rfl⟩

/-- C8: on a key already present in a loaded language, `setKey` with
`force = false` returns `false` and leaves the entire state unchanged,
while `setKey` with `force = true` succeeds and overwrites the stored
value. -/
theorem c8_setKey_force (s : I18nState) (language key : String)
    (value v0 : Val) (m : Lang)
    (hm : alookup s.languages (jsLower language) = some m)
    (hk : alookup m key = some v0) :
    setKey s language key value false = .ok (false, s) ∧
    ∃ s', setKey s language key value true = .ok (true, s') ∧
      alookup s'.languages (jsLower language) = some (aset m key value) ∧
      alookup (aset m key value) key = some value := by
  constructor
  · unfold setKey
    rw [hm]
    dsimp only
    rw [if_pos ⟨by simp [hk], rfl⟩]
  · unfold setKey
    rw [hm]
    dsimp only
    rw [if_neg (by simp)]
    refine ⟨_, rfl, ?_, alookup_aset_self m key value⟩
    split
    · exact alookup_aset_self _ _ _
    · exact alookup_aset_self _ _ _

/-- Witness for C8 on a concrete store. -/
theorem c8_witness :
    setKey keyState "de" "greet" (Val.vstr "x") false = .ok (false, keyState) ∧
    ∃ s', setKey keyState "de" "greet" (Val.vstr "x") true = .ok (true, s') ∧
      alookup s'.languages (jsLower "de") = some (aset [("greet", Val.vstr "hi")] "greet" (Val.vstr "x")) ∧
      alookup (aset [("greet", Val.vstr "hi")] "greet" (Val.vstr "x")) "greet" = some (Val.vstr "x") :=
  c8_setKey_force keyState "de" "greet" (Val.vstr "x") (Val.vstr "hi")
    [("greet", Val.vstr "hi")] rfl rfl

/-- C9: `unhook` can never succeed: its guard tests
`typeof(event) != 'number'` on the event name — a string by that point — so
every call throws `'callbackid must be a number'` (i18n.js:379-381), even
for a handle just returned by `hook`. -/
theorem c9_unhook_always_throws :
    (∀ (s : I18nState) (event callbackid : String),
      unhook s event callbackid = .error "callbackid must be a number") ∧
    ∃ s', hook (mkI18n "en-us" "_base") "change" 7 = .ok ("uid0", s') ∧
      unhook s' "change" "uid0" = .error "callbackid must be a number" :=
  ⟨fun _ _ _ => rfl, ⟨_, rfl, rfl⟩⟩

/-- C10: in every chain the resolver produces, every element other than the
first refers to a language loaded in the store when the chain was built;
unloaded candidates only ever reach the missing set. -/
theorem c10_tail_loaded (env : Env) (L : String)
    (chain missing : List String)
    (h : resolveChain env L = .ok (chain, missing)) :
    ∀ x ∈ chain.tail, (alookup env.languages x).isSome = true := by
  obtain ⟨⟨ext, he⟩, hnd, hmem⟩ := chainLoop_extends env _ 0 [L] [] chain missing h
  subst he
  intro x hx
  simp only [List.singleton_append, List.tail_cons] at hx
  have hx' : x ∈ [L] ++ ext := by simp [hx]
  rcases hmem x hx' with h1 | h1
  · have hxL : x = L := by simpa using h1
    have hn : ([L] ++ ext).Nodup := hnd (by simp)
    simp only [List.singleton_append, List.nodup_cons] at hn
    rw [hxL] at hx
    exact absurd hx hn.1
  · exact h1

/-- Witness for C10 on the fallback scenario store. -/
theorem c10_witness :
    (resolveChain fbEnv "de-de" = .ok (["de-de", "en-us"], ["en-gb"])) ∧
    (alookup fbEnv.languages "en-us").isSome = true :=
  ⟨rfl, c10_tail_loaded fbEnv "de-de" ["de-de", "en-us"] ["en-gb"] rfl "en-us" (by simp)⟩

end DSI18n
